import Mathlib

/-!
Shallow embedding of `chemicalx/data/contextfeatureset.py`.

The source defines `ContextFeatureSet`, a `dict` subclass whose storage is the
instance attribute namespace `self.__dict__`: an insertion-ordered mapping from
string context identifiers to numpy arrays.  Every stored array is the result
of `features.reshape(1, -1)`, i.e. a two-dimensional single-row matrix.

Modelling choices:
  * a numpy 1-D vector is `Vec := List ℚ` (exact rationals for the numeric
    entries; the code performs only equality-with-zero tests and one exact
    ratio, so rationals are a faithful carrier);
  * a numpy 2-D array is `Mat := List Vec`, a list of rows;
  * the ordered dictionary `self.__dict__` is `CFS := List (String × Mat)`,
    an association list in insertion order.  Python dict assignment replaces
    the value in place for an existing key and appends a fresh key at the
    end; deletion removes the entry; lookup of a missing key raises
    `KeyError`, modelled with `Except NpError`;
  * `np.concatenate` on a list of 2-D arrays fails on an empty list
    ("need at least one array to concatenate") and on mismatched column
    counts; otherwise it stacks the rows.  Both failure modes are
    `NpError.valueError`.
-/

/-- Entries of a numpy 1-D array: a flat numeric vector. -/
abbrev Vec := List ℚ

/-- A numpy 2-D array as a list of rows. -/
abbrev Mat := List Vec

/-- The backing ordered dictionary `self.__dict__`:
an association list from context identifiers to stored matrices. -/
abbrev CFS := List (String × Mat)

/-- Errors surfaced by the Python code: `KeyError` on a missing dictionary
key, and `ValueError` raised by `np.concatenate`. -/
inductive NpError where
  | keyNotFound (key : String)
  | valueError
  deriving DecidableEq, Repr

/-- `features.reshape(1, -1)`: any `n`-element vector becomes a `(1, n)`
single-row matrix. -/
def reshape_one (v : Vec) : Mat := [v]

/-- `m.shape[0]`: the number of rows of a 2-D array. -/
def shape0 (m : Mat) : Nat := m.length

/-- `m.shape[1]`: the number of columns of a 2-D array (rows of a numpy
2-D array all have the same length, so the length of the first row is the
column count). -/
def shape1 (m : Mat) : Nat := (m.headD []).length

/-- `m.shape` of a 2-D array. -/
def npShape (m : Mat) : Nat × Nat := (shape0 m, shape1 m)

/-- First-match lookup in the ordered dictionary (`self.__dict__[k]`,
successful case). -/
def dictGet : CFS → String → Option Mat
  | [], _ => none
  | (k2, m) :: rest, k => if k2 = k then some m else dictGet rest k

/-- Python dict assignment `self.__dict__[k] = m`: replace the value in
place when the key exists, append a fresh entry otherwise. -/
def dictSet (s : CFS) (k : String) (m : Mat) : CFS :=
  if s.any (fun p => p.1 = k) then
    s.map (fun p => if p.1 = k then (k, m) else p)
  else
    s ++ [(k, m)]

/-- `__setitem__`: `self.__dict__[context] = features.reshape(1, -1)`. -/
def setitem (s : CFS) (context : String) (features : Vec) : CFS :=
  dictSet s context (reshape_one features)

/-- `__getitem__`: `return self.__dict__[context]`; raises `KeyError`
when the key is absent. -/
def getitem (s : CFS) (context : String) : Except NpError Mat :=
  match dictGet s context with
  | some m => Except.ok m
  | none => Except.error (NpError.keyNotFound context)

/-- `__len__`: `len(self.__dict__)`. -/
def lenCFS (s : CFS) : Nat := s.length

/-- `__delitem__`: `del self.__dict__[context]`; raises `KeyError` when
the key is absent, otherwise removes the entry. -/
def delitem (s : CFS) (context : String) : Except NpError CFS :=
  if s.any (fun p => p.1 = context) then
    Except.ok (s.filter (fun p => decide (p.1 ≠ context)))
  else
    Except.error (NpError.keyNotFound context)

/-- `has_context`: `return context in self.__dict__`. -/
def has_context (s : CFS) (context : String) : Bool :=
  s.any (fun p => p.1 = context)

/-- `update`: `self.__dict__.update({c: f.reshape(1, -1) for c, f in data.items()})`,
i.e. dict assignment of the reshaped vector for each pair in order. -/
def updateCFS (s : CFS) (data : List (String × Vec)) : CFS :=
  data.foldl (fun acc p => setitem acc p.1 p.2) s

/-- `contexts`: `list(self.__dict__.keys())`. -/
def contexts (s : CFS) : List String := s.map Prod.fst

/-- `features`: `list(self.__dict__.values())`. -/
def featuresCFS (s : CFS) : List Mat := s.map Prod.snd

/-- `context_features`: `list(self.__dict__.items())`. -/
def context_features (s : CFS) : List (String × Mat) := s

/-- `__contains__`: `return context in self.__dict__`. -/
def containsCFS (s : CFS) (context : String) : Bool :=
  s.any (fun p => p.1 = context)

/-- `get_context_count`: `len(self.__dict__)`. -/
def get_context_count (s : CFS) : Nat := s.length

/-- `get_context_feature_count`: when non-empty, look up the first key of
`self.contexts()` and return the `shape[1]` of that vector; otherwise 0. -/
def get_context_feature_count (s : CFS) : Nat :=
  if 0 < lenCFS s then
    let cs := contexts s
    let first_context := cs.headD ""
    let feature_vector := (dictGet s first_context).getD []
    shape1 feature_vector
  else 0

/-- `np.concatenate` on a list of 2-D arrays: `ValueError` on an empty
list, `ValueError` on mismatched column counts, otherwise the vertical
stack of the rows. -/
def np_concatenate (ms : List Mat) : Except NpError Mat :=
  match ms with
  | [] => Except.error NpError.valueError
  | m :: rest =>
    if rest.all (fun x => shape1 x = shape1 m) then
      Except.ok ((m :: rest).flatten)
    else
      Except.error NpError.valueError

/-- The list comprehension `[self.__dict__[context] for context in contexts]`:
evaluated left to right, raising `KeyError` at the first absent key. -/
def lookupRows (s : CFS) : List String → Except NpError (List Mat)
  | [] => Except.ok []
  | c :: cs =>
    match getitem s c with
    | Except.error e => Except.error e
    | Except.ok m =>
      match lookupRows s cs with
      | Except.error e => Except.error e
      | Except.ok ms => Except.ok (m :: ms)

/-- `get_features_in_contexts`:
`np.concatenate([self.__dict__[context] for context in contexts])`. -/
def get_features_in_contexts (s : CFS) (cs : List String) : Except NpError Mat :=
  match lookupRows s cs with
  | Except.error e => Except.error e
  | Except.ok ms => np_concatenate ms

/-- `np.sum(feature_matrix != 0)`: the number of non-zero scalar entries. -/
def count_nonzero (m : Mat) : Nat :=
  m.flatten.countP (fun x => decide (x ≠ 0))

/-- `get_feature_density_rate`: `None` when empty; otherwise the non-zero
count of the full stacked matrix divided by
`feature_count * context_count`. -/
def get_feature_density_rate (s : CFS) : Except NpError (Option ℚ) :=
  if 0 < lenCFS s then
    match get_features_in_contexts s (contexts s) with
    | Except.error e => Except.error e
    | Except.ok feature_matrix =>
      Except.ok (some ((count_nonzero feature_matrix : ℚ) /
        ((get_context_feature_count s : ℚ) * (get_context_count s : ℚ))))
  else
    Except.ok none

/-- The single data row stored under a key: the stored matrices always
have exactly one row, and this extracts it (claim-side helper). -/
def storedRow (s : CFS) (c : String) : Vec :=
  ((dictGet s c).getD []).headD []

/-- Claim-side total of non-zero scalar entries over all stored vectors. -/
def totalNonzero (s : CFS) : Nat :=
  (s.map (fun p => count_nonzero p.2)).sum

/-- States reachable from the empty feature set by any sequence of
`__setitem__`, `update` and successful `__delitem__` operations. -/
inductive Reachable : CFS → Prop where
  | empty : Reachable []
  | set (s : CFS) (k : String) (v : Vec) : Reachable s → Reachable (setitem s k v)
  | upd (s : CFS) (d : List (String × Vec)) : Reachable s → Reachable (updateCFS s d)
  | del (s s2 : CFS) (k : String) : Reachable s → delitem s k = Except.ok s2 → Reachable s2

/-! ## Basic dictionary lemmas -/

theorem dictGet_dictSet_self (s : CFS) (k : String) (m : Mat) :
    dictGet (dictSet s k m) k = some m := by
  induction s with
  | nil => simp [dictSet, dictGet]
  | cons p rest ih =>
    by_cases hpk : p.1 = k
    · simp [dictSet, dictGet, hpk]
    · by_cases hr : rest.any (fun q => decide (q.1 = k)) = true
      · simpa [dictSet, dictGet, hpk, hr] using ih
      · simpa [dictSet, dictGet, hpk, hr] using ih

theorem getitem_setitem_self (s : CFS) (k : String) (v : Vec) :
    getitem (setitem s k v) k = Except.ok (reshape_one v) := by
  simp [getitem, setitem, dictGet_dictSet_self]

theorem has_context_iff_dictGet (s : CFS) (k : String) :
    has_context s k = true ↔ ∃ m, dictGet s k = some m := by
  induction s with
  | nil => simp [has_context, dictGet]
  | cons p rest ih =>
    by_cases hpk : p.1 = k
    · simp [has_context, dictGet, hpk]
    · simpa [has_context, dictGet, hpk] using ih

theorem dictGet_eq_none_of_not_has (s : CFS) (k : String)
    (h : has_context s k = false) : dictGet s k = none := by
  cases hd : dictGet s k with
  | none => rfl
  | some m =>
    have ht := (has_context_iff_dictGet s k).mpr ⟨m, hd⟩
    rw [h] at ht
    cases ht

/-- Claim C1: after `set(k, v)`, `get(k)` returns exactly `v` reshaped to a
`(1, D)` row vector with `D` the number of elements of `v`; a second `set`
on the same key overwrites, so `get` returns the latest reshaped vector. -/
theorem set_get_returns_reshaped (s : CFS) (k : String) (v w : Vec) :
    getitem (setitem s k v) k = Except.ok (reshape_one v) ∧
    npShape (reshape_one v) = (1, v.length) ∧
    getitem (setitem (setitem s k v) k w) k = Except.ok (reshape_one w) :=
  ⟨getitem_setitem_self s k v, rfl, getitem_setitem_self (setitem s k v) k w⟩

/-- Claim C10: `has_context`, the `in` operator and membership in the
`contexts()` key list agree, and they hold exactly when `get` succeeds. -/
theorem membership_views_agree (s : CFS) (k : String) :
    has_context s k = containsCFS s k ∧
    (has_context s k = true ↔ k ∈ contexts s) ∧
    (has_context s k = true ↔ ∃ m, getitem s k = Except.ok m) := by
  refine ⟨rfl, ?_, ?_⟩
  · simp [has_context, contexts, List.any_eq_true, List.mem_map]
  · rw [has_context_iff_dictGet]
    constructor
    · rintro ⟨m, hm⟩
      exact ⟨m, by simp [getitem, hm]⟩
    · rintro ⟨m, hm⟩
      cases hd : dictGet s k with
      | none => simp [getitem, hd] at hm
      | some m2 => exact ⟨m2, rfl⟩

/-- Witness for C10 at a concrete one-entry feature set. -/
theorem membership_views_agree_witness :
    has_context (setitem [] "a" [(1 : ℚ)]) "a" = containsCFS (setitem [] "a" [(1 : ℚ)]) "a" ∧
    (has_context (setitem [] "a" [(1 : ℚ)]) "a" = true ↔
      "a" ∈ contexts (setitem [] "a" [(1 : ℚ)])) ∧
    (has_context (setitem [] "a" [(1 : ℚ)]) "a" = true ↔
      ∃ m, getitem (setitem [] "a" [(1 : ℚ)]) "a" = Except.ok m) :=
  membership_views_agree (setitem [] "a" [(1 : ℚ)]) "a"

theorem lookupRows_error_of_absent (s : CFS) (cs : List String)
    (h : ∃ c ∈ cs, has_context s c = false) :
    ∃ kk, has_context s kk = false ∧
      lookupRows s cs = Except.error (NpError.keyNotFound kk) := by
  induction cs with
  | nil => simp at h
  | cons c rest ih =>
    by_cases hc : has_context s c = false
    · exact ⟨c, hc, by simp [lookupRows, getitem, dictGet_eq_none_of_not_has s c hc]⟩
    · have hc2 : has_context s c = true := by
        revert hc; cases has_context s c <;> simp
      obtain ⟨m, hm⟩ := (has_context_iff_dictGet s c).mp hc2
      have hrest : ∃ c2 ∈ rest, has_context s c2 = false := by
        obtain ⟨c2, hmem, hfalse⟩ := h
        rcases List.mem_cons.mp hmem with hh | h2
        · exact absurd (hh ▸ hfalse) hc
        · exact ⟨c2, h2, hfalse⟩
      obtain ⟨kk, hkk, hlr⟩ := ih hrest
      exact ⟨kk, hkk, by simp [lookupRows, getitem, hm, hlr]⟩

/-- Claim C4: for an absent key `k`, `get` and `delete` fail with
`KeyNotFound k`, and `gather` over any key list containing `k` fails with
`KeyNotFound` for some absent key; no absent key is silently skipped. -/
theorem absent_key_errors (s : CFS) (k : String)
    (h : has_context s k = false) :
    getitem s k = Except.error (NpError.keyNotFound k) ∧
    delitem s k = Except.error (NpError.keyNotFound k) ∧
    ∀ cs : List String, k ∈ cs →
      ∃ kk, has_context s kk = false ∧
        get_features_in_contexts s cs = Except.error (NpError.keyNotFound kk) := by
  refine ⟨?_, ?_, ?_⟩
  · simp [getitem, dictGet_eq_none_of_not_has s k h]
  · have h2 : (s.any fun p => decide (p.1 = k)) = false := h
    simp [delitem, h2]
  · intro cs hk
    obtain ⟨kk, hkk, hlr⟩ := lookupRows_error_of_absent s cs ⟨k, hk, h⟩
    exact ⟨kk, hkk, by simp [get_features_in_contexts, hlr]⟩

/-- Witness for C4: looking up the absent key `"b"` in a set holding only
`"a"` fails with `KeyNotFound "b"`. -/
theorem absent_key_errors_witness :
    getitem (setitem [] "a" [(1 : ℚ)]) "b" = Except.error (NpError.keyNotFound "b") :=
  (absent_key_errors (setitem [] "a" [(1 : ℚ)]) "b" rfl).1

/-- Claim C6: `get_context_feature_count` returns the second shape
component of the first stored vector when non-empty, and 0 when empty. -/
theorem feature_count_first_entry :
    get_context_feature_count ([] : CFS) = 0 ∧
    ∀ (k : String) (m : Mat) (rest : CFS),
      get_context_feature_count ((k, m) :: rest) = (npShape m).2 := by
  refine ⟨rfl, ?_⟩
  intro k m rest
  simp [get_context_feature_count, lenCFS, contexts, dictGet, npShape, shape1]

/-! ## Gather and density lemmas -/

theorem has_context_of_mem_contexts (s : CFS) (k : String)
    (h : k ∈ contexts s) : has_context s k = true := by
  rcases List.mem_map.mp h with ⟨p, hp, hk⟩
  simp only [has_context, List.any_eq_true]
  exact ⟨p, hp, by simp [hk]⟩

theorem dictGet_mem_values (s : CFS) (c : String) (m : Mat)
    (h : dictGet s c = some m) : m ∈ featuresCFS s := by
  induction s with
  | nil => cases h
  | cons p rest ih =>
    rw [dictGet] at h
    by_cases hpk : p.1 = c
    · simp [hpk] at h
      simp [featuresCFS, h]
    · simp [hpk] at h
      simp [featuresCFS]
      right
      simpa [featuresCFS] using ih h

theorem lookupRows_ok_of_present (s : CFS) (cs : List String)
    (h : ∀ c ∈ cs, has_context s c = true) :
    lookupRows s cs = Except.ok (cs.map (fun c => (dictGet s c).getD [])) := by
  induction cs with
  | nil => rfl
  | cons c rest ih =>
    obtain ⟨m, hm⟩ := (has_context_iff_dictGet s c).mp (h c (List.mem_cons_self c rest))
    have hr := ih (fun c2 hc2 => h c2 (List.mem_cons_of_mem c hc2))
    simp [lookupRows, getitem, hm, hr]

theorem flatten_of_single_rows (ms : List Mat)
    (h : ∀ m ∈ ms, ∃ v : Vec, m = [v]) :
    ms.flatten = ms.map (fun m => m.headD []) := by
  induction ms with
  | nil => rfl
  | cons m rest ih =>
    obtain ⟨v, hv⟩ := h m (List.mem_cons_self m rest)
    have hr := ih (fun m2 hm2 => h m2 (List.mem_cons_of_mem m hm2))
    simp [hv, hr]

theorem np_concatenate_single_rows (ms : List Mat) (D : Nat)
    (hne : ms ≠ [])
    (h : ∀ m ∈ ms, ∃ v : Vec, m = [v] ∧ v.length = D) :
    np_concatenate ms = Except.ok (ms.map (fun m => m.headD [])) := by
  cases ms with
  | nil => exact absurd rfl hne
  | cons m rest =>
    have hall : ∀ x ∈ rest, shape1 x = shape1 m := by
      intro x hx
      obtain ⟨v, hv, hvD⟩ := h x (List.mem_cons_of_mem m hx)
      obtain ⟨w, hw, hwD⟩ := h m (List.mem_cons_self m rest)
      simp [hv, hw, shape1, hvD, hwD]
    have hflat := flatten_of_single_rows (m :: rest)
      (fun x hx => (h x hx).imp (fun v hv => hv.1))
    simp only [np_concatenate]
    rw [if_pos]
    · exact congrArg Except.ok hflat
    · simpa using hall

theorem gather_ok (s : CFS) (D : Nat) (cs : List String)
    (hs : ∀ p ∈ s, ∃ v : Vec, p.2 = [v] ∧ v.length = D)
    (hne : cs ≠ [])
    (hmem : ∀ c ∈ cs, has_context s c = true) :
    get_features_in_contexts s cs = Except.ok (cs.map (storedRow s)) := by
  have hrows := lookupRows_ok_of_present s cs hmem
  have hsingle : ∀ m ∈ cs.map (fun c => (dictGet s c).getD []), ∃ v : Vec, m = [v] ∧ v.length = D := by
    intro m hm
    rcases List.mem_map.mp hm with ⟨c, hc, hmc⟩
    obtain ⟨m2, hm2⟩ := (has_context_iff_dictGet s c).mp (hmem c hc)
    rcases List.mem_map.mp (dictGet_mem_values s c m2 hm2) with ⟨p, hp, hpm⟩
    obtain ⟨v, hv, hvD⟩ := hs p hp
    exact ⟨v, by rw [← hmc, hm2]; simpa [hv] using (hpm.symm ▸ hv : m2 = [v]), hvD⟩
  have hmapne : cs.map (fun c => (dictGet s c).getD []) ≠ [] := by
    cases cs with
    | nil => exact absurd rfl hne
    | cons c rest => simp
  have hconc := np_concatenate_single_rows _ D hmapne hsingle
  simp only [get_features_in_contexts, hrows, hconc, List.map_map]
  rfl

/-- Claim C2: on a feature set whose stored vectors all have dimensionality
`D`, gathering a non-empty list of present keys (duplicates allowed) yields
an `(m, D)` matrix whose row `i` is the stored vector of the `i`-th
requested key, in request order. -/
theorem gather_preserves_rows (s : CFS) (D : Nat) (cs : List String)
    (hs : ∀ p ∈ s, ∃ v : Vec, p.2 = [v] ∧ v.length = D)
    (hne : cs ≠ [])
    (hmem : ∀ c ∈ cs, has_context s c = true) :
    get_features_in_contexts s cs = Except.ok (cs.map (storedRow s)) ∧
    shape0 (cs.map (storedRow s)) = cs.length ∧
    (∀ r ∈ cs.map (storedRow s), r.length = D) ∧
    ∀ c ∈ cs, getitem s c = Except.ok [storedRow s c] := by
  have hget : ∀ c ∈ cs, getitem s c = Except.ok [storedRow s c] ∧
      (storedRow s c).length = D := by
    intro c hc
    obtain ⟨m, hm⟩ := (has_context_iff_dictGet s c).mp (hmem c hc)
    rcases List.mem_map.mp (dictGet_mem_values s c m hm) with ⟨p, hp, hpm⟩
    obtain ⟨v, hv, hvD⟩ := hs p hp
    have hmv : m = [v] := hpm ▸ hv
    have hrow : storedRow s c = v := by simp [storedRow, hm, hmv]
    exact ⟨by simp [getitem, hm, hmv, hrow], hrow ▸ hvD⟩
  refine ⟨gather_ok s D cs hs hne hmem, by simp [shape0], ?_, fun c hc => (hget c hc).1⟩
  intro r hr
  rcases List.mem_map.mp hr with ⟨c, hc, hcr⟩
  exact hcr ▸ (hget c hc).2

/-- Witness for C2 on a two-entry feature set gathered in reversed order. -/
theorem gather_preserves_rows_witness :
    get_features_in_contexts [("a", [[(1 : ℚ), 2]]), ("b", [[(3 : ℚ), 4]])] ["b", "a"]
      = Except.ok
        (["b", "a"].map (storedRow [("a", [[(1 : ℚ), 2]]), ("b", [[(3 : ℚ), 4]])])) :=
  (gather_preserves_rows [("a", [[(1 : ℚ), 2]]), ("b", [[(3 : ℚ), 4]])] 2 ["b", "a"]
    (by
      intro p hp
      simp only [List.mem_cons, List.not_mem_nil, or_false] at hp
      rcases hp with rfl | rfl
      · exact ⟨[1, 2], rfl, rfl⟩
      · exact ⟨[3, 4], rfl, rfl⟩)
    (by simp)
    (by
      intro c hc
      simp only [List.mem_cons, List.not_mem_nil, or_false] at hc
      rcases hc with rfl | rfl <;> rfl)).1

/-- Counterexample for C9: on a one-entry feature set, `gather([])` raises
the empty-concatenation `ValueError` instead of returning a matrix. -/
theorem gather_empty_list_counterexample :
    get_features_in_contexts [("a", [[(1 : ℚ)]])] [] = Except.error NpError.valueError := rfl

/-- Claim C9 (amended): `gather` applies no special handling to an empty
key list; the underlying empty concatenation fails, so the call raises
`ValueError` rather than returning an empty matrix. -/
theorem gather_empty_list_raises (s : CFS) :
    get_features_in_contexts s [] = Except.error NpError.valueError := rfl

theorem contexts_map_dictGet (s : CFS) (hnd : (contexts s).Nodup) :
    (contexts s).map (fun c => (dictGet s c).getD []) = featuresCFS s := by
  induction s with
  | nil => rfl
  | cons p rest ih =>
    obtain ⟨k, m⟩ := p
    simp only [contexts, List.map_cons] at hnd
    obtain ⟨hk, hrest⟩ := List.nodup_cons.mp hnd
    simp only [contexts, featuresCFS, List.map_cons]
    congr 1
    · simp [dictGet]
    · have hpt : ∀ c ∈ rest.map Prod.fst,
          (dictGet ((k, m) :: rest) c).getD [] = (dictGet rest c).getD [] := by
        intro c hc
        have hkc : k ≠ c := fun h => hk (h ▸ hc)
        simp [dictGet, hkc]
      rw [List.map_congr_left hpt]
      exact ih hrest

theorem countP_flatten_eq (L : List Vec) (p : ℚ → Bool) :
    L.flatten.countP p = (L.map (fun v => v.countP p)).sum := by
  induction L with
  | nil => rfl
  | cons v rest ih => simp [List.countP_append, ih]

theorem density_general (s : CFS) (D : Nat) (hne : s ≠ [])
    (hnd : (contexts s).Nodup)
    (hs : ∀ p ∈ s, ∃ v : Vec, p.2 = [v] ∧ v.length = D) :
    get_feature_density_rate s =
      Except.ok (some ((totalNonzero s : ℚ) / ((D : ℚ) * (lenCFS s : ℚ)))) := by
  have hlen : 0 < lenCFS s := by
    cases s with
    | nil => exact absurd rfl hne
    | cons p rest => simp [lenCFS]
  have hcne : contexts s ≠ [] := by
    cases s with
    | nil => exact absurd rfl hne
    | cons p rest => simp [contexts]
  have hmem : ∀ c ∈ contexts s, has_context s c = true :=
    fun c hc => has_context_of_mem_contexts s c hc
  have hg := gather_ok s D (contexts s) hs hcne hmem
  have hrows : (contexts s).map (storedRow s) = s.map (fun p => p.2.headD []) := by
    have h1 : (contexts s).map (storedRow s)
        = ((contexts s).map (fun c => (dictGet s c).getD [])).map (fun m => m.headD []) := by
      rw [List.map_map]
      rfl
    rw [h1, contexts_map_dictGet s hnd]
    simp [featuresCFS, List.map_map]
  have hcount : count_nonzero ((contexts s).map (storedRow s)) = totalNonzero s := by
    rw [hrows]
    simp only [count_nonzero, totalNonzero]
    rw [countP_flatten_eq, List.map_map]
    congr 1
    apply List.map_congr_left
    intro p hp
    obtain ⟨v, hv, hvD⟩ := hs p hp
    simp [hv]
  have hfc : get_context_feature_count s = D := by
    cases s with
    | nil => exact absurd rfl hne
    | cons p rest =>
      obtain ⟨k, m⟩ := p
      obtain ⟨v, hv, hvD⟩ := hs (k, m) (List.mem_cons_self (k, m) rest)
      have hv2 : m = [v] := hv
      simp [get_context_feature_count, lenCFS, contexts, dictGet, shape1, hv2, hvD]
  have hlen2 : 0 < List.length s := hlen
  simp only [get_feature_density_rate, hg, hcount, hfc, get_context_count, lenCFS,
    if_pos hlen2]

/-- Claim C3: `density()` is `None` on an empty set, `0.0` on a single
all-zero vector, `1.0` on a single all-non-zero vector, and in general
(non-empty, uniform dimensionality `D > 0`, distinct keys) equals the
number of non-zero scalar entries over all stored vectors divided by
`D * context_count`. -/
theorem density_rate_values :
    (get_feature_density_rate [] = Except.ok none) ∧
    (∀ (k : String) (v : Vec), 0 < v.length → (∀ x ∈ v, x = 0) →
      get_feature_density_rate (setitem [] k v) = Except.ok (some 0)) ∧
    (∀ (k : String) (v : Vec), 0 < v.length → (∀ x ∈ v, x ≠ 0) →
      get_feature_density_rate (setitem [] k v) = Except.ok (some 1)) ∧
    (∀ (s : CFS) (D : Nat), s ≠ [] → 0 < D → (contexts s).Nodup →
      (∀ p ∈ s, ∃ v : Vec, p.2 = [v] ∧ v.length = D) →
      get_feature_density_rate s =
        Except.ok (some ((totalNonzero s : ℚ) / ((D : ℚ) * (lenCFS s : ℚ))))) := by
  refine ⟨rfl, ?_, ?_, fun s D hne _ hnd hs => density_general s D hne hnd hs⟩
  · intro k v hlen hzero
    have hs1 : ∀ p ∈ [(k, reshape_one v)], ∃ w : Vec, p.2 = [w] ∧ w.length = v.length := by
      intro p hp
      simp only [List.mem_singleton] at hp
      exact ⟨v, by rw [hp]; rfl, rfl⟩
    have hd := density_general [(k, reshape_one v)] v.length (by simp) (by simp [contexts]) hs1
    have htot : totalNonzero [(k, reshape_one v)] = 0 := by
      simp only [totalNonzero, List.map_cons, List.map_nil, List.sum_cons, List.sum_nil,
        add_zero, count_nonzero, reshape_one]
      rw [List.countP_eq_zero]
      intro a ha
      simp only [List.flatten, List.append_nil] at ha
      simp [hzero a ha]
    have hset : setitem [] k v = [(k, reshape_one v)] := rfl
    rw [hset, hd, htot]
    norm_num
  · intro k v hlen hnonzero
    have hs1 : ∀ p ∈ [(k, reshape_one v)], ∃ w : Vec, p.2 = [w] ∧ w.length = v.length := by
      intro p hp
      simp only [List.mem_singleton] at hp
      exact ⟨v, by rw [hp]; rfl, rfl⟩
    have hd := density_general [(k, reshape_one v)] v.length (by simp) (by simp [contexts]) hs1
    have htot : totalNonzero [(k, reshape_one v)] = v.length := by
      simp only [totalNonzero, List.map_cons, List.map_nil, List.sum_cons, List.sum_nil,
        add_zero, count_nonzero, reshape_one]
      have hfl : ([v] : Mat).flatten = v := by simp
      rw [hfl, List.countP_eq_length]
      intro a ha
      simp [hnonzero a ha]
    have hvne : (v.length : ℚ) ≠ 0 := Nat.cast_ne_zero.mpr (Nat.pos_iff_ne_zero.mp hlen)
    have hset : setitem [] k v = [(k, reshape_one v)] := rfl
    rw [hset, hd, htot]
    simp [lenCFS, hvne]

/-- Witness for C3: a single two-entry all-zero vector has density `0`. -/
theorem density_rate_values_witness :
    get_feature_density_rate (setitem [] "a" [(0 : ℚ), 0]) = Except.ok (some 0) :=
  density_rate_values.2.1 "a" [0, 0] (by decide) (by decide)

/-! ## Update, insertion and deletion lemmas -/

/-- Claim-side driver: delete the listed keys one by one via `__delitem__`,
propagating `KeyNotFound`. -/
def deleteAll : CFS → List String → Except NpError CFS
  | s, [] => Except.ok s
  | s, k :: ks =>
    match delitem s k with
    | Except.error e => Except.error e
    | Except.ok s2 => deleteAll s2 ks

theorem setitem_fresh (s : CFS) (k : String) (v : Vec)
    (h : has_context s k = false) : setitem s k v = s ++ [(k, reshape_one v)] := by
  have h2 : (s.any fun p => decide (p.1 = k)) = false := h
  simp [setitem, dictSet, h2]

theorem updateCFS_fresh_all (entries : List (String × Vec)) :
    ∀ s : CFS, (entries.map Prod.fst).Nodup →
    (∀ k2 ∈ entries.map Prod.fst, has_context s k2 = false) →
    updateCFS s entries = s ++ entries.map (fun p => (p.1, reshape_one p.2)) := by
  induction entries with
  | nil =>
    intro s _ _
    simp [updateCFS]
  | cons q rest ih =>
    intro s hnd hfresh
    rw [List.map_cons] at hnd
    obtain ⟨hnotin, hnd2⟩ := List.nodup_cons.mp hnd
    have hq1 : has_context s q.1 = false := hfresh q.1 (by simp)
    have hset := setitem_fresh s q.1 q.2 hq1
    have hfresh2 : ∀ k2 ∈ rest.map Prod.fst, has_context (setitem s q.1 q.2) k2 = false := by
      intro k2 hk2
      have hk2s : (s.any fun p => decide (p.1 = k2)) = false := hfresh k2 (by simp [hk2])
      have hk2q : q.1 ≠ k2 := fun h => hnotin (h ▸ hk2)
      rw [hset]
      simp [has_context, List.any_append, hk2s, hk2q]
    have hstep : updateCFS s (q :: rest) = updateCFS (setitem s q.1 q.2) rest := rfl
    rw [hstep, ih (setitem s q.1 q.2) hnd2 hfresh2, hset]
    simp

theorem delitem_present (s : CFS) (k : String) (h : has_context s k = true) :
    delitem s k = Except.ok (s.filter (fun p => decide (p.1 ≠ k))) := by
  have h2 : (s.any fun p => decide (p.1 = k)) = true := h
  simp [delitem, h2]

theorem length_filter_out_key (s : CFS) (k : String)
    (hnd : (contexts s).Nodup) (hk : k ∈ contexts s) :
    (s.filter (fun p => decide (p.1 ≠ k))).length = s.length - 1 := by
  induction s with
  | nil => cases hk
  | cons p rest ih =>
    rw [contexts, List.map_cons] at hnd hk
    obtain ⟨hnotin, hnd2⟩ := List.nodup_cons.mp hnd
    by_cases hpk : p.1 = k
    · rw [List.filter_cons, if_neg (by simp [hpk])]
      have hall : rest.filter (fun q => decide (q.1 ≠ k)) = rest := by
        rw [List.filter_eq_self]
        intro q hq
        simp only [decide_eq_true_eq]
        intro hqk
        exact hnotin (by rw [hpk, ← hqk]; exact List.mem_map_of_mem Prod.fst hq)
      rw [hall, List.length_cons]
      omega
    · have hkrest : k ∈ rest.map Prod.fst := by
        rcases List.mem_cons.mp hk with h1 | h1
        · exact absurd h1.symm hpk
        · exact h1
      have hpos : 0 < rest.length := by
        rcases List.mem_map.mp hkrest with ⟨q, hq, _⟩
        exact List.length_pos.mpr (List.ne_nil_of_mem hq)
      have ihr := ih hnd2 hkrest
      rw [List.filter_cons, if_pos (by simp [hpk]), List.length_cons, ihr, List.length_cons]
      omega

theorem contexts_filter_out_key (s : CFS) (k : String) :
    contexts (s.filter (fun p => decide (p.1 ≠ k)))
      = (contexts s).filter (fun c => decide (c ≠ k)) := by
  induction s with
  | nil => rfl
  | cons p rest ih =>
    by_cases hpk : p.1 = k <;>
      simp [contexts, List.filter_cons, hpk, ih] <;>
      simpa [contexts] using ih

theorem deleteAll_ok (ds : List String) :
    ∀ s : CFS, (contexts s).Nodup → ds.Nodup → (∀ k ∈ ds, k ∈ contexts s) →
    ∃ s2, deleteAll s ds = Except.ok s2 ∧ lenCFS s2 = lenCFS s - ds.length ∧
      (contexts s2).Nodup ∧ ∀ k2, k2 ∈ contexts s2 ↔ (k2 ∈ contexts s ∧ k2 ∉ ds) := by
  induction ds with
  | nil =>
    intro s hnd _ _
    exact ⟨s, rfl, by simp [lenCFS], hnd, by simp⟩
  | cons k rest ih =>
    intro s hnd hdsnd hsub
    have hk : k ∈ contexts s := hsub k (by simp)
    have hhk : has_context s k = true := has_context_of_mem_contexts s k hk
    have hdel := delitem_present s k hhk
    have hlen1 : (s.filter (fun p => decide (p.1 ≠ k))).length = s.length - 1 :=
      length_filter_out_key s k hnd hk
    have hctx1 := contexts_filter_out_key s k
    have hnd1 : (contexts (s.filter (fun p => decide (p.1 ≠ k)))).Nodup := by
      rw [hctx1]
      exact hnd.filter _
    obtain ⟨hknotin, hrestnd⟩ := List.nodup_cons.mp hdsnd
    have hsub1 : ∀ k2 ∈ rest, k2 ∈ contexts (s.filter (fun p => decide (p.1 ≠ k))) := by
      intro k2 hk2
      rw [hctx1, List.mem_filter]
      refine ⟨hsub k2 (by simp [hk2]), ?_⟩
      simp only [decide_eq_true_eq]
      exact fun h => hknotin (h ▸ hk2)
    obtain ⟨s2, hda, hlen2, hnd2, hmem2⟩ :=
      ih (s.filter (fun p => decide (p.1 ≠ k))) hnd1 hrestnd hsub1
    refine ⟨s2, ?_, ?_, hnd2, ?_⟩
    · simp only [deleteAll, hdel]
      exact hda
    · rw [hlen2]
      simp only [lenCFS, hlen1, List.length_cons]
      omega
    · intro k2
      rw [hmem2 k2, hctx1, List.mem_filter]
      simp only [decide_eq_true_eq, List.mem_cons]
      constructor
      · rintro ⟨⟨hmem, hne⟩, hnotr⟩
        exact ⟨hmem, fun h => h.elim hne hnotr⟩
      · rintro ⟨hmem, hnot⟩
        exact ⟨⟨hmem, fun h => hnot (Or.inl h)⟩, fun h => hnot (Or.inr h)⟩

/-- Claim C7: starting empty, inserting `n` entries under pairwise-distinct
keys gives `count() = n`; deleting `k` of those keys then gives
`count() = n - k`. -/
theorem count_after_insert_delete (entries : List (String × Vec)) (ds : List String)
    (hnd : (entries.map Prod.fst).Nodup) (hds : ds.Nodup)
    (hsub : ∀ k ∈ ds, k ∈ entries.map Prod.fst) :
    lenCFS (updateCFS [] entries) = entries.length ∧
    ∃ s2, deleteAll (updateCFS [] entries) ds = Except.ok s2 ∧
      lenCFS s2 = entries.length - ds.length := by
  have hbuild : updateCFS [] entries = entries.map (fun p => (p.1, reshape_one p.2)) := by
    have h := updateCFS_fresh_all entries [] hnd (fun k2 _ => rfl)
    simpa using h
  have hctx : contexts (updateCFS [] entries) = entries.map Prod.fst := by
    rw [hbuild]
    simp [contexts, List.map_map, Function.comp]
  have hndb : (contexts (updateCFS [] entries)).Nodup := by
    rw [hctx]
    exact hnd
  have hsubb : ∀ k ∈ ds, k ∈ contexts (updateCFS [] entries) := by
    rw [hctx]
    exact hsub
  have hlenb : lenCFS (updateCFS [] entries) = entries.length := by
    rw [hbuild]
    simp [lenCFS]
  obtain ⟨s2, hda, hlen2, _, _⟩ := deleteAll_ok ds (updateCFS [] entries) hndb hds hsubb
  exact ⟨hlenb, s2, hda, by rw [hlen2, hlenb]⟩

/-- Witness for C7: two insertions then one deletion. -/
theorem count_after_insert_delete_witness :
    lenCFS (updateCFS [] [("a", [(1 : ℚ)]), ("b", [(2 : ℚ)])]) =
      List.length [("a", [(1 : ℚ)]), ("b", [(2 : ℚ)])] ∧
    ∃ s2, deleteAll (updateCFS [] [("a", [(1 : ℚ)]), ("b", [(2 : ℚ)])]) ["a"] = Except.ok s2 ∧
      lenCFS s2 = List.length [("a", [(1 : ℚ)]), ("b", [(2 : ℚ)])] - List.length ["a"] :=
  count_after_insert_delete [("a", [(1 : ℚ)]), ("b", [(2 : ℚ)])] ["a"]
    (by decide) (by decide) (by decide)

/-! ## Shape invariant over reachable states -/

theorem mem_dictSet (s : CFS) (k : String) (m0 : Mat) (p : String × Mat)
    (h : p ∈ dictSet s k m0) : p ∈ s ∨ p.2 = m0 := by
  unfold dictSet at h
  by_cases hc : (s.any fun q => decide (q.1 = k)) = true
  · rw [if_pos hc] at h
    rcases List.mem_map.mp h with ⟨q, hq, hqe⟩
    by_cases hqk : q.1 = k
    · right
      rw [← hqe]
      simp [hqk]
    · left
      rw [← hqe]
      simpa [hqk] using hq
  · rw [if_neg hc] at h
    rcases List.mem_append.mp h with h1 | h1
    · left
      exact h1
    · right
      simp only [List.mem_singleton] at h1
      rw [h1]

theorem mem_updateCFS (d : List (String × Vec)) :
    ∀ (s : CFS) (p : String × Mat), p ∈ updateCFS s d →
      p ∈ s ∨ ∃ v : Vec, p.2 = [v] := by
  induction d with
  | nil =>
    intro s p hp
    left
    exact hp
  | cons q rest ih =>
    intro s p hp
    have hstep : updateCFS s (q :: rest) = updateCFS (setitem s q.1 q.2) rest := rfl
    rw [hstep] at hp
    rcases ih (setitem s q.1 q.2) p hp with h1 | h1
    · rcases mem_dictSet s q.1 (reshape_one q.2) p h1 with h2 | h2
      · left
        exact h2
      · right
        exact ⟨q.2, h2⟩
    · right
      exact h1

theorem delitem_ok_eq (s s2 : CFS) (k : String) (h : delitem s k = Except.ok s2) :
    s2 = s.filter (fun p => decide (p.1 ≠ k)) := by
  unfold delitem at h
  split at h
  · exact (Except.ok.inj h).symm
  · cases h

/-- A reachable state holding vectors of two different dimensionalities. -/
def mixedDims : CFS := setitem (setitem [] "a" [(1 : ℚ)]) "b" [(1 : ℚ), 2]

/-- Counterexample for C5: `mixedDims` is built by two `set` calls, yet its
two stored vectors have shapes `(1, 1)` and `(1, 2)`, so the stored vectors
do not share a feature-set-wide dimensionality `D`. -/
theorem uniform_dim_counterexample :
    Reachable mixedDims ∧
    ¬ (∀ p ∈ mixedDims, ∀ q ∈ mixedDims, npShape p.2 = npShape q.2) :=
  ⟨Reachable.set (setitem [] "a" [(1 : ℚ)]) "b" [(1 : ℚ), 2]
      (Reachable.set [] "a" [(1 : ℚ)] Reachable.empty),
    by decide⟩

/-- Claim C5 (amended): in every reachable state, each stored vector
individually has shape `(1, D_k)` — exactly one row, whose length is that
own dimensionality of that key; a shared dimensionality across keys is not
enforced. -/
theorem stored_vectors_single_row (s : CFS) (hr : Reachable s) :
    ∀ (k : String) (m : Mat), (k, m) ∈ s →
      ∃ v : Vec, m = [v] ∧ npShape m = (1, v.length) := by
  induction hr with
  | empty =>
    intro k m hm
    cases hm
  | set s2 k2 v2 _ ih =>
    intro k m hm
    rcases mem_dictSet s2 k2 (reshape_one v2) (k, m) hm with h1 | h1
    · exact ih k m h1
    · exact ⟨v2, h1, by rw [show m = [v2] from h1]; rfl⟩
  | upd s2 d _ ih =>
    intro k m hm
    rcases mem_updateCFS d s2 (k, m) hm with h1 | h1
    · exact ih k m h1
    · obtain ⟨v, hv⟩ := h1
      exact ⟨v, hv, by rw [show m = [v] from hv]; rfl⟩
  | del s2 s3 k2 _ hdel ih =>
    intro k m hm
    rw [delitem_ok_eq s2 s3 k2 hdel] at hm
    exact ih k m (List.mem_of_mem_filter hm)

/-- Witness for C5 (amended) at a concrete reachable one-entry state. -/
theorem stored_vectors_single_row_witness :
    ∃ v : Vec, ([[(1 : ℚ), 2]] : Mat) = [v] ∧
      npShape ([[(1 : ℚ), 2]] : Mat) = (1, v.length) :=
  stored_vectors_single_row (setitem [] "a" [(1 : ℚ), 2])
    (Reachable.set [] "a" [(1 : ℚ), 2] Reachable.empty) "a" [[(1 : ℚ), 2]] (by decide)

/-- Claim C8: on an empty set, `update({a: v1, b: v2})` (distinct keys)
followed by `items()` yields exactly the pairs `(a, v1.reshape(1, -1))`
and `(b, v2.reshape(1, -1))`, as order-insensitive set equality. -/
theorem update_items_roundtrip (a b : String) (v1 v2 : Vec) (p : String × Mat)
    (hab : a ≠ b) :
    p ∈ context_features (updateCFS [] [(a, v1), (b, v2)]) ↔
      (p = (a, reshape_one v1) ∨ p = (b, reshape_one v2)) := by
  have h1 : updateCFS [] [(a, v1), (b, v2)] = [(a, reshape_one v1), (b, reshape_one v2)] := by
    simp [updateCFS, setitem, dictSet, hab]
  rw [h1]
  simp [context_features]

/-- Witness for C8 with keys `"a"`, `"b"` and one-entry vectors. -/
theorem update_items_roundtrip_witness :
    (("a", ([[1]] : Mat)) ∈
        context_features (updateCFS [] [("a", [(1 : ℚ)]), ("b", [(2 : ℚ)])]) ↔
      (("a", ([[1]] : Mat)) = ("a", reshape_one [(1 : ℚ)]) ∨
        ("a", ([[1]] : Mat)) = ("b", reshape_one [(2 : ℚ)]))) :=
  update_items_roundtrip "a" "b" [1] [2] ("a", [[1]]) (by decide)
